import Mathlib

/-!
Verification development for a fixed-size thread pool
(`ThreadPool::new` / `ThreadPool::execute` / `Drop for ThreadPool` /
`Worker::new` in `src/lib.rs`).

The embedding has two layers:

* a functional layer for the sequential parts of the code:
  `threadPoolNew` (construction, including the `assert!(size > 0)`
  guard, modelled as an `Except` error since a panic aborts
  construction before anything is spawned) and `joinLoop` (the second
  loop of `Drop::drop`, which `take()`s each worker's `Option`al join
  handle and joins it);

* a small-step transition system `Step` over states `St` for the
  concurrent behaviour: the mpsc channel is a FIFO list of `Message`s
  (enqueue appends at the tail, the lock-guarded `recv` removes the
  head atomically), each worker thread is a `WorkerSt` whose `phase`
  follows the loop in `Worker::new`, and the submitting/dropping
  context is tracked by `MainPh` following `ThreadPool::execute` and
  `Drop::drop`.  Ghost fields (`enqueued`, `dequeued`, `begun`,
  `joined`) record event histories; a parameter `faulty` marks tasks
  whose execution panics.
-/

/-- The `Message` enum of the source: `NewJob(Job)` or `Terminate`.
Jobs are identified by a natural number (the closure's identity;
its only observable effect in the model is being recorded as executed). -/
inductive Message where
  | newJob (t : Nat)
  | terminate
deriving DecidableEq, Repr

/-- Phase of a worker thread, following the loop body of `Worker::new`:
blocked on / about to `recv` (`running`), executing a job (`exec`),
exited the loop after a `Terminate` (`done`), or killed by a panic
propagating out of a job (`panicked`, remembering the job that died). -/
inductive WPhase where
  | running
  | exec (t : Nat)
  | done
  | panicked (t : Nat)
deriving DecidableEq, Repr

/-- A worker thread's state: its `id` (the `id` field of `Worker`),
its phase, and a ghost log of the jobs whose execution it has begun. -/
structure WorkerSt where
  id : Nat
  phase : WPhase
  begun : List Nat
deriving DecidableEq, Repr

/-- Phase of the context owning the pool: submitting jobs
(`ThreadPool::execute`), sending `Terminate`s (first loop of
`Drop::drop`, `k` already sent), joining workers (second loop,
`k` already joined), finished, or panicked (a `join().unwrap()`
received a panicked thread's `Err`). -/
inductive MainPh where
  | submitting
  | dropSending (k : Nat)
  | joining (k : Nat)
  | finished
  | panicked
deriving DecidableEq, Repr

/-- Global state of the system. `pending` are the jobs the owning
context has not yet submitted; `queue` is the channel's buffer
(head = oldest); `executed` collects jobs whose execution completed;
`enqueued`/`dequeued`/`joined` are ghost histories of sends, receives
and joins (by roster index). -/
structure St where
  pending : List Nat
  queue : List Message
  workers : List WorkerSt
  executed : List Nat
  enqueued : List Message
  dequeued : List Message
  joined : List Nat
  mainPh : MainPh
deriving DecidableEq, Repr

/-- A freshly spawned worker thread: blocked on `recv`, nothing begun. -/
def initWorker (id : Nat) : WorkerSt :=
  { id := id, phase := .running, begun := [] }

/-- Initial state: `ThreadPool::new(size)` has spawned workers
`0..size` sharing the empty channel; the owner holds jobs `tasks`
to submit (in this order) before dropping the pool. -/
def initSt (size : Nat) (tasks : List Nat) : St :=
  { pending := tasks
    queue := []
    workers := (List.range size).map initWorker
    executed := []
    enqueued := []
    dequeued := []
    joined := []
    mainPh := .submitting }

/-- Interleaving semantics. Worker steps identify the stepping worker
by a list decomposition `workers = l ++ w :: r` (its roster index is
`l.length`). The lock around the receiver makes each `recv` atomic:
`recvJob`/`recvTerm` remove the head of the queue in one step. -/
inductive Step (size : Nat) (faulty : Nat → Bool) : St → St → Prop where
  /-- The send of `ThreadPool::execute`: wrap the next job as `NewJob` and send it.
  Enabled regardless of the queue's contents (the channel is unbounded,
  sending never blocks). -/
  | submit (s : St) (t : Nat) (rest : List Nat)
      (hm : s.mainPh = .submitting) (hp : s.pending = t :: rest) :
      Step size faulty s
        { s with pending := rest
                 queue := s.queue ++ [.newJob t]
                 enqueued := s.enqueued ++ [.newJob t] }
  /-- The pool goes out of scope: `Drop::drop` starts. -/
  | beginDrop (s : St)
      (hm : s.mainPh = .submitting) (hp : s.pending = []) :
      Step size faulty s { s with mainPh := .dropSending 0 }
  /-- First loop of `Drop::drop`: one `Terminate` per worker. -/
  | sendTerm (s : St) (k : Nat)
      (hm : s.mainPh = .dropSending k) (hk : k < size) :
      Step size faulty s
        { s with queue := s.queue ++ [.terminate]
                 enqueued := s.enqueued ++ [.terminate]
                 mainPh := .dropSending (k + 1) }
  /-- First loop done (`size` iterations), second loop starts. -/
  | startJoin (s : St) (hm : s.mainPh = .dropSending size) :
      Step size faulty s { s with mainPh := .joining 0 }
  /-- Second loop of `Drop::drop`: `take()` worker `k`'s handle and
  join it. `join()` returns only once the thread has exited; a clean
  exit returns `Ok(())`, so `unwrap()` succeeds and the loop advances. -/
  | joinOk (s : St) (l r : List WorkerSt) (w : WorkerSt)
      (hm : s.mainPh = .joining l.length)
      (hw : s.workers = l ++ w :: r) (hph : w.phase = .done) :
      Step size faulty s
        { s with mainPh := .joining (l.length + 1)
                 joined := s.joined ++ [l.length] }
  /-- Joining a worker whose thread died in a job panic: `join()`
  returns `Err`, and the `unwrap()` panics the dropping context. -/
  | joinPanic (s : St) (l r : List WorkerSt) (w : WorkerSt) (t : Nat)
      (hm : s.mainPh = .joining l.length)
      (hw : s.workers = l ++ w :: r) (hph : w.phase = .panicked t) :
      Step size faulty s
        { s with mainPh := .panicked
                 joined := s.joined ++ [l.length] }
  /-- Second loop done: `Drop::drop` returns. -/
  | finish (s : St) (hm : s.mainPh = .joining size) :
      Step size faulty s { s with mainPh := .finished }
  /-- A worker acquires the lock and receives a `NewJob`: it leaves
  the `if let` with the job and begins executing it. -/
  | recvJob (s : St) (l r : List WorkerSt) (w : WorkerSt)
      (t : Nat) (rest : List Message)
      (hw : s.workers = l ++ w :: r) (hph : w.phase = .running)
      (hq : s.queue = .newJob t :: rest) :
      Step size faulty s
        { s with queue := rest
                 dequeued := s.dequeued ++ [.newJob t]
                 workers :=
                   l ++ { w with phase := .exec t
                                 begun := w.begun ++ [t] } :: r }
  /-- A worker receives `Terminate`: it breaks out of its loop. -/
  | recvTerm (s : St) (l r : List WorkerSt) (w : WorkerSt)
      (rest : List Message)
      (hw : s.workers = l ++ w :: r) (hph : w.phase = .running)
      (hq : s.queue = .terminate :: rest) :
      Step size faulty s
        { s with queue := rest
                 dequeued := s.dequeued ++ [.terminate]
                 workers := l ++ { w with phase := .done } :: r }
  /-- A job runs to completion; the worker loops back to `recv`. -/
  | execFinish (s : St) (l r : List WorkerSt) (w : WorkerSt) (t : Nat)
      (hw : s.workers = l ++ w :: r) (hph : w.phase = .exec t)
      (hf : faulty t = false) :
      Step size faulty s
        { s with executed := s.executed ++ [t]
                 workers := l ++ { w with phase := .running } :: r }
  /-- A job panics; the panic propagates out of the loop and the
  worker thread dies without reaching a clean exit. -/
  | execPanic (s : St) (l r : List WorkerSt) (w : WorkerSt) (t : Nat)
      (hw : s.workers = l ++ w :: r) (hph : w.phase = .exec t)
      (hf : faulty t = true) :
      Step size faulty s
        { s with workers := l ++ { w with phase := .panicked t } :: r }

/-- States reachable from the initial state by interleaved steps. -/
def Reachable (size : Nat) (faulty : Nat → Bool)
    (tasks : List Nat) (s : St) : Prop :=
  Relation.ReflTransGen (Step size faulty) (initSt size tasks) s

/-- A `Worker` record as held by the pool's roster: the `id` field and
the `Option`al join handle (`thread: Option<JoinHandle<()>>`); handles
are modelled as naturals. -/
structure WorkerRec where
  id : Nat
  thread : Option Nat
deriving DecidableEq, Repr

/-- Failure of `assert!(size > 0)` in `ThreadPool::new`: a panic that
aborts construction (the spec's InvalidConfiguration error). -/
inductive PoolError where
  | invalidConfiguration
deriving DecidableEq, Repr

/-- The pool's roster, as constructed by `ThreadPool::new`. -/
structure PoolSt where
  workers : List WorkerRec
deriving DecidableEq, Repr

/-- Construction, `ThreadPool::new(size)`. The `assert!(size > 0)` runs before the
channel is created or any worker is spawned, so on failure nothing is
spawned and no pool is returned. The second component is a ghost log
of the spawned worker ids (each `Worker::new(id, …)` spawns one
thread; its handle is modelled as `id`). -/
def threadPoolNew (size : Nat) : Except PoolError PoolSt × List Nat :=
  if 0 < size then
    (.ok { workers :=
            (List.range size).map fun id => { id := id, thread := some id } },
     List.range size)
  else
    (.error .invalidConfiguration, [])

/-- Second loop of `Drop::drop`: for each worker in roster order,
`worker.thread.take()` (handle moves out, field becomes `None`), and
`join` the handle if one was present. Returns the updated roster and
the joined handles in roster order. -/
def joinLoop : List WorkerRec → List WorkerRec × List Nat
  | [] => ([], [])
  | w :: ws =>
    match w.thread with
    | some h =>
      let p := joinLoop ws
      ({ w with thread := none } :: p.1, h :: p.2)
    | none =>
      let p := joinLoop ws
      (w :: p.1, p.2)

/-- The job payloads of a message list, in order. -/
def jobsOf (ms : List Message) : List Nat :=
  ms.filterMap fun m => match m with | .newJob t => some t | .terminate => none

/-- Recognizer for `Terminate`. -/
def isTerm : Message → Bool
  | .terminate => true
  | .newJob _ => false

/-- Number of `Terminate` messages in a list. -/
def termCount (ms : List Message) : Nat := ms.countP isTerm

/-- Whether a worker has exited its loop cleanly. -/
def isDone (w : WorkerSt) : Bool :=
  match w.phase with | .done => true | _ => false

/-- Number of workers that have exited the loop cleanly. -/
def doneCount (ws : List WorkerSt) : Nat := ws.countP isDone

/-- The job a worker currently holds: the one it is executing, or the
one whose panic killed it. -/
def heldJob (w : WorkerSt) : Option Nat :=
  match w.phase with
  | .exec t => some t
  | .panicked t => some t
  | _ => none

/-- Multiset of the jobs currently held by the workers. -/
def inFlight (ws : List WorkerSt) : Multiset Nat := ↑(ws.filterMap heldJob)

/-- Number of `Terminate`s the owning context has sent so far,
as a function of its phase. -/
def termsSent (size : Nat) : MainPh → Nat
  | .submitting => 0
  | .dropSending k => k
  | _ => size

/-- Shape of the ghost join log in each phase of the owning context. -/
def joinedOk (size : Nat) (js : List Nat) : MainPh → Prop
  | .submitting => js = []
  | .dropSending _ => js = []
  | .joining k => js = List.range k
  | .finished => js = List.range size
  | .panicked => ∃ k, k ≤ size ∧ js = List.range k

theorem jobsOf_append (a b : List Message) :
    jobsOf (a ++ b) = jobsOf a ++ jobsOf b :=
  List.filterMap_append a b _

theorem jobsOf_newJob (t : Nat) : jobsOf [Message.newJob t] = [t] := rfl

theorem jobsOf_term : jobsOf [Message.terminate] = [] := rfl

theorem jobsOf_replicate_term (n : Nat) :
    jobsOf (List.replicate n Message.terminate) = [] := by
  induction n with
  | zero => rfl
  | succ n ih => simp only [List.replicate_succ, jobsOf, List.filterMap_cons] at ih ⊢
                 exact ih

theorem jobsOf_map_newJob (l : List Nat) :
    jobsOf (l.map Message.newJob) = l := by
  induction l with
  | nil => rfl
  | cons t l ih => simpa [jobsOf] using ih

theorem termCount_append (a b : List Message) :
    termCount (a ++ b) = termCount a + termCount b :=
  List.countP_append _ a b

theorem termCount_newJob (t : Nat) : termCount [Message.newJob t] = 0 := rfl

theorem termCount_term : termCount [Message.terminate] = 1 := rfl

theorem termCount_replicate_term (n : Nat) :
    termCount (List.replicate n Message.terminate) = n := by
  induction n with
  | zero => rfl
  | succ n ih => simp [List.replicate_succ, termCount, List.countP_cons, isTerm] at ih ⊢
                 omega

theorem termCount_map_newJob (l : List Nat) :
    termCount (l.map Message.newJob) = 0 := by
  induction l with
  | nil => rfl
  | cons t l ih => simp_all [termCount, List.countP_cons, isTerm]

/-- Inductive invariant of the transition system. -/
structure SysInv (size : Nat) (tasks : List Nat) (s : St) : Prop where
  /-- The roster is fixed: ids are `0, 1, …, size-1`, forever. -/
  ids : s.workers.map WorkerSt.id = List.range size
  /-- The channel is FIFO: what has been received, in order, followed
  by the current buffer, is exactly what has been sent, in order. -/
  fifo : s.enqueued = s.dequeued ++ s.queue
  /-- Sends happen in program order: first the submitted jobs (a
  prefix of `tasks`), then the `Terminate`s of the current phase. -/
  sub : ∃ k, k ≤ tasks.length ∧ s.pending = tasks.drop k ∧
      s.enqueued = (tasks.take k).map Message.newJob ++
        List.replicate (termsSent size s.mainPh) Message.terminate
  /-- Once teardown has begun, every job has been submitted. -/
  pendNil : s.mainPh ≠ .submitting → s.pending = []
  /-- Each received `Terminate` took exactly one worker out of its
  loop, and workers exit only that way. -/
  deqTerms : termCount s.dequeued = doneCount s.workers
  /-- Job conservation: every task is pending, buffered, held by a
  worker, or executed. -/
  conserve : (↑s.pending + ↑(jobsOf s.queue) + inFlight s.workers +
      ↑s.executed : Multiset Nat) = ↑tasks
  /-- The first drop loop runs at most `size` iterations. -/
  dropBound : ∀ k, s.mainPh = .dropSending k → k ≤ size
  /-- The join loop at index `k` has already joined workers
  `0, …, k-1`, all of which exited cleanly. -/
  joinBound : ∀ k, s.mainPh = .joining k → k ≤ size ∧
      ∀ j w, j < k → s.workers[j]? = some w → w.phase = .done
  /-- When `Drop::drop` has returned, every worker has exited. -/
  finAll : s.mainPh = .finished → ∀ w ∈ s.workers, w.phase = .done
  /-- The join log matches the join loop's progress. -/
  joinedSpec : joinedOk size s.joined s.mainPh

theorem SysInv.workers_length {size : Nat} {tasks : List Nat} {s : St}
    (h : SysInv size tasks s) : s.workers.length = size := by
  have := congrArg List.length h.ids
  simpa using this

theorem inv_init (size : Nat) (tasks : List Nat) :
    SysInv size tasks (initSt size tasks) := by
  refine ⟨?_, ?_, ?_, ?_, ?_, ?_, ?_, ?_, ?_, ?_⟩
  · show ((List.range size).map initWorker).map WorkerSt.id = List.range size
    rw [List.map_map]
    have h : WorkerSt.id ∘ initWorker = fun n => n := funext fun n => rfl
    simp [h]
  · simp [initSt]
  · exact ⟨0, Nat.zero_le _, by simp [initSt, termsSent]⟩
  · intro h; exact absurd rfl h
  · simp [initSt, termCount, doneCount]
    induction size with
    | zero => simp
    | succ n ih => simp [List.range_succ, List.countP_append, ih, initWorker, isDone]
  · simp [initSt, inFlight, jobsOf]
    induction size with
    | zero => simp
    | succ n ih => simp [List.range_succ, List.filterMap_append, ih, initWorker, heldJob]
  · intro k hk; simp [initSt] at hk
  · intro k hk; simp [initSt] at hk
  · intro hk; simp [initSt] at hk
  · simp [initSt, joinedOk]

theorem drop_cons_succ {l : List Nat} {k t : Nat} {rest : List Nat}
    (h : l.drop k = t :: rest) :
    l.drop (k + 1) = rest ∧ l.take (k + 1) = l.take k ++ [t] ∧ k < l.length := by
  have htail : l.drop (k + 1) = rest := by
    rw [← List.tail_drop, h]
    rfl
  have hget : l[k]? = some t := by
    have h0 := List.getElem?_drop l k 0
    rw [h] at h0
    simpa using h0.symm
  have hlt : k < l.length := (List.getElem?_eq_some.mp hget).1
  refine ⟨htail, ?_, hlt⟩
  rw [List.take_succ, hget]
  rfl

theorem filterMap_decomp {α β : Type} (f : α → Option β) (l r : List α) (w : α) :
    (l ++ w :: r).filterMap f = l.filterMap f ++ ((f w).toList ++ r.filterMap f) := by
  rw [List.filterMap_append]
  congr 1
  cases hfw : f w <;> simp [List.filterMap_cons, hfw]

theorem inFlight_decomp (l r : List WorkerSt) (w : WorkerSt) :
    inFlight (l ++ w :: r) =
      inFlight l + (↑(heldJob w).toList + inFlight r) := by
  unfold inFlight
  rw [filterMap_decomp, Multiset.coe_add, Multiset.coe_add]

theorem doneCount_decomp (l r : List WorkerSt) (w : WorkerSt) :
    doneCount (l ++ w :: r) =
      doneCount l + (doneCount r + if isDone w then 1 else 0) := by
  unfold doneCount
  rw [List.countP_append, List.countP_cons]

theorem map_id_update (l r : List WorkerSt) (w w' : WorkerSt) (h : w'.id = w.id) :
    (l ++ w' :: r).map WorkerSt.id = (l ++ w :: r).map WorkerSt.id := by
  simp [h]

theorem getElem?_decomp_self {α : Type} (l r : List α) (w : α) :
    (l ++ w :: r)[l.length]? = some w := by
  rw [List.getElem?_append_right (Nat.le_refl _)]
  simp

theorem getElem?_decomp_ne {α : Type} (l r : List α) (w w' : α) {j : Nat}
    (hj : j ≠ l.length) :
    (l ++ w' :: r)[j]? = (l ++ w :: r)[j]? := by
  rcases Nat.lt_or_ge j l.length with h | h
  · rw [List.getElem?_append_left h, List.getElem?_append_left h]
  · have h' : l.length < j := lt_of_le_of_ne h (Ne.symm hj)
    rw [List.getElem?_append_right h, List.getElem?_append_right h]
    have hj1 : j - l.length = (j - l.length - 1) + 1 := by omega
    rw [hj1]
    simp

theorem sysInv_step {size : Nat} {faulty : Nat → Bool} {tasks : List Nat}
    {s s' : St} (hinv : SysInv size tasks s) (hstep : Step size faulty s s') :
    SysInv size tasks s' := by
  obtain ⟨ids, fifo, sub, pendNil, deqTerms, conserve, dropBound, joinBound,
    finAll, joinedSpec⟩ := hinv
  have hlen : s.workers.length = size := by
    have h := congrArg List.length ids
    simpa using h
  cases hstep with
  | submit t rest hm hp =>
      obtain ⟨k, hk, hpend, henq⟩ := sub
      rw [hm] at henq
      have hdropk : tasks.drop k = t :: rest := by rw [← hpend, hp]
      obtain ⟨hd1, ht1, hlt⟩ := drop_cons_succ hdropk
      refine ⟨ids, ?_, ⟨k + 1, hlt, hd1.symm, ?_⟩, ?_, deqTerms, ?_, dropBound,
        joinBound, finAll, joinedSpec⟩
      · show s.enqueued ++ [Message.newJob t] =
          s.dequeued ++ (s.queue ++ [Message.newJob t])
        rw [fifo, List.append_assoc]
      · show s.enqueued ++ [Message.newJob t] =
          (tasks.take (k + 1)).map Message.newJob ++
            List.replicate (termsSent size s.mainPh) Message.terminate
        rw [hm, henq, ht1]
        simp [termsSent]
      · intro h
        exact absurd hm h
      · show (↑rest + ↑(jobsOf (s.queue ++ [Message.newJob t])) +
          inFlight s.workers + ↑s.executed : Multiset Nat) = ↑tasks
        rw [hp] at conserve
        rw [← conserve, jobsOf_append, jobsOf_newJob]
        have e1 : (↑(jobsOf s.queue ++ [t]) : Multiset Nat) =
            ↑(jobsOf s.queue) + ↑[t] := rfl
        have e2 : (↑(t :: rest) : Multiset Nat) = ↑[t] + ↑rest := by
          simp [← Multiset.cons_coe, ← Multiset.singleton_add]
        rw [e1, e2]
        abel
  | beginDrop hm hp =>
      obtain ⟨k, hk, hpend, henq⟩ := sub
      rw [hm] at henq
      refine ⟨ids, fifo, ⟨k, hk, hpend, ?_⟩, fun _ => hp, deqTerms, conserve,
        ?_, ?_, ?_, ?_⟩
      · simpa [termsSent] using henq
      · intro k' hk'
        have h2 : MainPh.dropSending 0 = MainPh.dropSending k' := hk'
        cases h2
        exact Nat.zero_le _
      · intro k' hk'
        exact absurd hk' (by simp)
      · intro hfin
        exact absurd hfin (by simp)
      · show joinedOk size s.joined (MainPh.dropSending 0)
        rw [hm] at joinedSpec
        simpa [joinedOk] using joinedSpec
  | sendTerm k0 hm hk0 =>
      obtain ⟨k, hk, hpend, henq⟩ := sub
      rw [hm] at henq
      refine ⟨ids, ?_, ⟨k, hk, hpend, ?_⟩, fun _ => pendNil (by rw [hm]; simp),
        deqTerms, ?_, ?_, ?_, ?_, ?_⟩
      · show s.enqueued ++ [Message.terminate] =
          s.dequeued ++ (s.queue ++ [Message.terminate])
        rw [fifo, List.append_assoc]
      · show s.enqueued ++ [Message.terminate] =
          (tasks.take k).map Message.newJob ++
            List.replicate (termsSent size (MainPh.dropSending (k0 + 1)))
              Message.terminate
        rw [henq]
        simp [termsSent, List.replicate_succ', List.append_assoc]
      · show (↑s.pending + ↑(jobsOf (s.queue ++ [Message.terminate])) +
          inFlight s.workers + ↑s.executed : Multiset Nat) = ↑tasks
        rw [← conserve, jobsOf_append, jobsOf_term]
        simp
      · intro k' hk'
        have h2 : MainPh.dropSending (k0 + 1) = MainPh.dropSending k' := hk'
        cases h2
        exact hk0
      · intro k' hk'
        exact absurd hk' (by simp)
      · intro hfin
        exact absurd hfin (by simp)
      · show joinedOk size s.joined (MainPh.dropSending (k0 + 1))
        rw [hm] at joinedSpec
        simpa [joinedOk] using joinedSpec
  | startJoin hm =>
      obtain ⟨k, hk, hpend, henq⟩ := sub
      rw [hm] at henq
      refine ⟨ids, fifo, ⟨k, hk, hpend, ?_⟩, fun _ => pendNil (by rw [hm]; simp),
        deqTerms, conserve, ?_, ?_, ?_, ?_⟩
      · simpa [termsSent] using henq
      · intro k' hk'
        exact absurd hk' (by simp)
      · intro k' hk'
        have h2 : MainPh.joining 0 = MainPh.joining k' := hk'
        cases h2
        exact ⟨Nat.zero_le _, fun j w hj _ => absurd hj (Nat.not_lt_zero j)⟩
      · intro hfin
        exact absurd hfin (by simp)
      · show joinedOk size s.joined (MainPh.joining 0)
        rw [hm] at joinedSpec
        simpa [joinedOk] using joinedSpec
  | joinOk l r w hm hw hph =>
      obtain ⟨k, hk, hpend, henq⟩ := sub
      rw [hm] at henq
      have hlsize : l.length < size := by
        rw [hw] at hlen
        simp at hlen
        omega
      refine ⟨ids, fifo, ⟨k, hk, hpend, ?_⟩, fun _ => pendNil (by rw [hm]; simp),
        deqTerms, conserve, ?_, ?_, ?_, ?_⟩
      · simpa [termsSent] using henq
      · intro k' hk'
        exact absurd hk' (by simp)
      · intro k' hk'
        have h2 : MainPh.joining (l.length + 1) = MainPh.joining k' := hk'
        cases h2
        refine ⟨hlsize, fun j wj hj hget => ?_⟩
        by_cases hje : j = l.length
        · subst hje
          rw [hw, getElem?_decomp_self] at hget
          cases hget
          exact hph
        · have hjl : j < l.length := by omega
          exact (joinBound l.length hm).2 j wj hjl hget
      · intro hfin
        exact absurd hfin (by simp)
      · show joinedOk size (s.joined ++ [l.length]) (MainPh.joining (l.length + 1))
        rw [hm] at joinedSpec
        simp only [joinedOk] at joinedSpec ⊢
        rw [joinedSpec, ← List.range_succ]
  | joinPanic l r w t hm hw hph =>
      obtain ⟨k, hk, hpend, henq⟩ := sub
      rw [hm] at henq
      have hlsize : l.length < size := by
        rw [hw] at hlen
        simp at hlen
        omega
      refine ⟨ids, fifo, ⟨k, hk, hpend, ?_⟩, fun _ => pendNil (by rw [hm]; simp),
        deqTerms, conserve, ?_, ?_, ?_, ?_⟩
      · simpa [termsSent] using henq
      · intro k' hk'
        exact absurd hk' (by simp)
      · intro k' hk'
        exact absurd hk' (by simp)
      · intro hfin
        exact absurd hfin (by simp)
      · show joinedOk size (s.joined ++ [l.length]) MainPh.panicked
        rw [hm] at joinedSpec
        simp only [joinedOk] at joinedSpec ⊢
        refine ⟨l.length + 1, hlsize, ?_⟩
        rw [joinedSpec, ← List.range_succ]
  | finish hm =>
      obtain ⟨k, hk, hpend, henq⟩ := sub
      rw [hm] at henq
      refine ⟨ids, fifo, ⟨k, hk, hpend, ?_⟩, fun _ => pendNil (by rw [hm]; simp),
        deqTerms, conserve, ?_, ?_, ?_, ?_⟩
      · simpa [termsSent] using henq
      · intro k' hk'
        exact absurd hk' (by simp)
      · intro k' hk'
        exact absurd hk' (by simp)
      · intro _ w hwmem
        obtain ⟨j, hget⟩ := List.mem_iff_getElem?.mp hwmem
        have hj2 : j < s.workers.length := (List.getElem?_eq_some.mp hget).1
        rw [hlen] at hj2
        exact (joinBound size hm).2 j w hj2 hget
      · show joinedOk size s.joined MainPh.finished
        rw [hm] at joinedSpec
        simpa [joinedOk] using joinedSpec
  | recvJob l r w t rest hw hph hq =>
      obtain ⟨k, hk, hpend, henq⟩ := sub
      refine ⟨?_, ?_, ⟨k, hk, hpend, henq⟩, pendNil, ?_, ?_, dropBound, ?_, ?_,
        joinedSpec⟩
      · rw [hw] at ids
        simpa using ids
      · show s.enqueued = (s.dequeued ++ [Message.newJob t]) ++ rest
        rw [fifo, hq, List.append_assoc]
        rfl
      · show termCount (s.dequeued ++ [Message.newJob t]) =
          doneCount (l ++ { w with phase := .exec t, begun := w.begun ++ [t] } :: r)
        rw [hw, doneCount_decomp] at deqTerms
        rw [termCount_append, termCount_newJob, doneCount_decomp]
        have h0 : isDone w = false := by simp [isDone, hph]
        have h1 : isDone { w with phase := WPhase.exec t, begun := w.begun ++ [t] } =
            false := rfl
        rw [h0] at deqTerms
        rw [h1]
        simp at deqTerms ⊢
        omega
      · show (↑s.pending + ↑(jobsOf rest) +
          inFlight (l ++ { w with phase := .exec t, begun := w.begun ++ [t] } :: r) +
          ↑s.executed : Multiset Nat) = ↑tasks
        rw [hq, hw] at conserve
        rw [← conserve, inFlight_decomp, inFlight_decomp]
        have hw1 : heldJob { w with phase := WPhase.exec t, begun := w.begun ++ [t] } =
            some t := rfl
        have hw0 : heldJob w = none := by simp [heldJob, hph]
        have hj : jobsOf (Message.newJob t :: rest) = t :: jobsOf rest := rfl
        rw [hw1, hw0, hj]
        have e2 : (↑(t :: jobsOf rest) : Multiset Nat) = ↑[t] + ↑(jobsOf rest) := by
          simp [← Multiset.cons_coe, ← Multiset.singleton_add]
        rw [e2]
        simp only [Option.toList_some, Option.toList_none, Multiset.coe_nil]
        abel
      · intro k' hk'
        obtain ⟨hk'size, hjoin⟩ := joinBound k' hk'
        refine ⟨hk'size, fun j wj hj hget => ?_⟩
        by_cases hje : j = l.length
        · subst hje
          have h3 := hjoin l.length w hj (by rw [hw]; exact getElem?_decomp_self l r w)
          rw [hph] at h3
          cases h3
        · rw [getElem?_decomp_ne l r w _ hje, ← hw] at hget
          exact hjoin j wj hj hget
      · intro hfin
        have hwmem : w ∈ s.workers := by rw [hw]; simp
        have h3 := finAll hfin w hwmem
        rw [hph] at h3
        cases h3
  | recvTerm l r w rest hw hph hq =>
      obtain ⟨k, hk, hpend, henq⟩ := sub
      refine ⟨?_, ?_, ⟨k, hk, hpend, henq⟩, pendNil, ?_, ?_, dropBound, ?_, ?_,
        joinedSpec⟩
      · rw [hw] at ids
        simpa using ids
      · show s.enqueued = (s.dequeued ++ [Message.terminate]) ++ rest
        rw [fifo, hq, List.append_assoc]
        rfl
      · show termCount (s.dequeued ++ [Message.terminate]) =
          doneCount (l ++ { w with phase := .done } :: r)
        rw [hw, doneCount_decomp] at deqTerms
        rw [termCount_append, termCount_term, doneCount_decomp]
        have h0 : isDone w = false := by simp [isDone, hph]
        have h1 : isDone { w with phase := WPhase.done } = true := rfl
        rw [h0] at deqTerms
        rw [h1]
        simp at deqTerms ⊢
        omega
      · show (↑s.pending + ↑(jobsOf rest) +
          inFlight (l ++ { w with phase := .done } :: r) +
          ↑s.executed : Multiset Nat) = ↑tasks
        rw [hq, hw] at conserve
        rw [← conserve, inFlight_decomp, inFlight_decomp]
        have hw1 : heldJob { w with phase := WPhase.done } = none := rfl
        have hw0 : heldJob w = none := by simp [heldJob, hph]
        have hj : jobsOf (Message.terminate :: rest) = jobsOf rest := rfl
        rw [hw1, hw0, hj]
      · intro k' hk'
        obtain ⟨hk'size, hjoin⟩ := joinBound k' hk'
        refine ⟨hk'size, fun j wj hj hget => ?_⟩
        by_cases hje : j = l.length
        · subst hje
          rw [getElem?_decomp_self] at hget
          cases hget
          rfl
        · rw [getElem?_decomp_ne l r w _ hje, ← hw] at hget
          exact hjoin j wj hj hget
      · intro hfin
        have hwmem : w ∈ s.workers := by rw [hw]; simp
        have h3 := finAll hfin w hwmem
        rw [hph] at h3
        cases h3
  | execFinish l r w t hw hph hf =>
      obtain ⟨k, hk, hpend, henq⟩ := sub
      refine ⟨?_, fifo, ⟨k, hk, hpend, henq⟩, pendNil, ?_, ?_, dropBound, ?_, ?_,
        joinedSpec⟩
      · rw [hw] at ids
        simpa using ids
      · show termCount s.dequeued =
          doneCount (l ++ { w with phase := .running } :: r)
        rw [hw, doneCount_decomp] at deqTerms
        rw [doneCount_decomp]
        have h0 : isDone w = false := by simp [isDone, hph]
        have h1 : isDone { w with phase := WPhase.running } = false := rfl
        rw [h0] at deqTerms
        rw [h1]
        simp at deqTerms ⊢
        omega
      · show (↑s.pending + ↑(jobsOf s.queue) +
          inFlight (l ++ { w with phase := .running } :: r) +
          ↑(s.executed ++ [t]) : Multiset Nat) = ↑tasks
        rw [hw] at conserve
        rw [← conserve, inFlight_decomp, inFlight_decomp]
        have hw1 : heldJob { w with phase := WPhase.running } = none := rfl
        have hw0 : heldJob w = some t := by simp [heldJob, hph]
        have e1 : (↑(s.executed ++ [t]) : Multiset Nat) = ↑s.executed + ↑[t] := rfl
        rw [hw1, hw0, e1]
        simp only [Option.toList_some, Option.toList_none, Multiset.coe_nil]
        abel
      · intro k' hk'
        obtain ⟨hk'size, hjoin⟩ := joinBound k' hk'
        refine ⟨hk'size, fun j wj hj hget => ?_⟩
        by_cases hje : j = l.length
        · subst hje
          have h3 := hjoin l.length w hj (by rw [hw]; exact getElem?_decomp_self l r w)
          rw [hph] at h3
          cases h3
        · rw [getElem?_decomp_ne l r w _ hje, ← hw] at hget
          exact hjoin j wj hj hget
      · intro hfin
        have hwmem : w ∈ s.workers := by rw [hw]; simp
        have h3 := finAll hfin w hwmem
        rw [hph] at h3
        cases h3
  | execPanic l r w t hw hph hf =>
      obtain ⟨k, hk, hpend, henq⟩ := sub
      refine ⟨?_, fifo, ⟨k, hk, hpend, henq⟩, pendNil, ?_, ?_, dropBound, ?_, ?_,
        joinedSpec⟩
      · rw [hw] at ids
        simpa using ids
      · show termCount s.dequeued =
          doneCount (l ++ { w with phase := .panicked t } :: r)
        rw [hw, doneCount_decomp] at deqTerms
        rw [doneCount_decomp]
        have h0 : isDone w = false := by simp [isDone, hph]
        have h1 : isDone { w with phase := WPhase.panicked t } = false := rfl
        rw [h0] at deqTerms
        rw [h1]
        simp at deqTerms ⊢
        omega
      · show (↑s.pending + ↑(jobsOf s.queue) +
          inFlight (l ++ { w with phase := .panicked t } :: r) +
          ↑s.executed : Multiset Nat) = ↑tasks
        rw [hw] at conserve
        rw [← conserve, inFlight_decomp, inFlight_decomp]
        have hw1 : heldJob { w with phase := WPhase.panicked t } = some t := rfl
        have hw0 : heldJob w = some t := by simp [heldJob, hph]
        rw [hw1, hw0]
      · intro k' hk'
        obtain ⟨hk'size, hjoin⟩ := joinBound k' hk'
        refine ⟨hk'size, fun j wj hj hget => ?_⟩
        by_cases hje : j = l.length
        · subst hje
          have h3 := hjoin l.length w hj (by rw [hw]; exact getElem?_decomp_self l r w)
          rw [hph] at h3
          cases h3
        · rw [getElem?_decomp_ne l r w _ hje, ← hw] at hget
          exact hjoin j wj hj hget
      · intro hfin
        have hwmem : w ∈ s.workers := by rw [hw]; simp
        have h3 := finAll hfin w hwmem
        rw [hph] at h3
        cases h3

theorem sysInv_reachable {size : Nat} {faulty : Nat → Bool} {tasks : List Nat}
    {s : St} (h : Reachable size faulty tasks s) : SysInv size tasks s := by
  induction h with
  | refl => exact inv_init size tasks
  | tail _ hstep ih => exact sysInv_step ih hstep

/-- In a run where no job is faulty, no worker thread ever dies of a
panic. -/
def NoPanic (s : St) : Prop :=
  ∀ w ∈ s.workers, ∀ t, w.phase ≠ WPhase.panicked t

/-- Membership in an updated roster: either the updated worker, or a
member of the original roster. -/
theorem mem_update_cases (w : WorkerSt) {l r : List WorkerSt} {w' x : WorkerSt}
    (hx : x ∈ l ++ w' :: r) : x = w' ∨ x ∈ l ++ w :: r := by
  rcases List.mem_append.mp hx with h | h
  · exact Or.inr (List.mem_append.mpr (Or.inl h))
  · rcases List.mem_cons.mp h with h | h
    · exact Or.inl h
    · exact Or.inr (List.mem_append.mpr (Or.inr (List.mem_cons.mpr (Or.inr h))))

theorem noPanic_step {size : Nat} {faulty : Nat → Bool} {s s' : St}
    (hff : ∀ t, faulty t = false) (hnp : NoPanic s)
    (hstep : Step size faulty s s') : NoPanic s' := by
  cases hstep with
  | submit t rest hm hp => exact hnp
  | beginDrop hm hp => exact hnp
  | sendTerm k0 hm hk0 => exact hnp
  | startJoin hm => exact hnp
  | joinOk l r w hm hw hph => exact hnp
  | joinPanic l r w t hm hw hph => exact hnp
  | finish hm => exact hnp
  | recvJob l r w t rest hw hph hq =>
      intro w' hw' t'
      rcases mem_update_cases w hw' with h1 | h1
      · subst h1; simp
      · rw [← hw] at h1
        exact hnp w' h1 t'
  | recvTerm l r w rest hw hph hq =>
      intro w' hw' t'
      rcases mem_update_cases w hw' with h1 | h1
      · subst h1; simp
      · rw [← hw] at h1
        exact hnp w' h1 t'
  | execFinish l r w t hw hph hf =>
      intro w' hw' t'
      rcases mem_update_cases w hw' with h1 | h1
      · subst h1; simp
      · rw [← hw] at h1
        exact hnp w' h1 t'
  | execPanic l r w t hw hph hf =>
      rw [hff t] at hf
      cases hf

theorem noPanic_reachable {size : Nat} {faulty : Nat → Bool} {tasks : List Nat}
    {s : St} (hff : ∀ t, faulty t = false)
    (h : Reachable size faulty tasks s) : NoPanic s := by
  induction h with
  | refl =>
      intro w hw t
      simp [initSt] at hw
      obtain ⟨i, _, hi⟩ := hw
      rw [← hi]
      simp [initWorker]
  | tail _ hstep ih => exact noPanic_step hff ih hstep

/-- With a single worker, that worker's begun-jobs log is exactly the
job payloads of the receive history, in order. -/
def Begun1 (s : St) : Prop :=
  ∀ w, s.workers = [w] → w.begun = jobsOf s.dequeued

theorem begun1_step {size : Nat} {faulty : Nat → Bool} {s s' : St}
    (h1 : Begun1 s) (hstep : Step size faulty s s') : Begun1 s' := by
  cases hstep with
  | submit t rest hm hp => exact h1
  | beginDrop hm hp => exact h1
  | sendTerm k0 hm hk0 => exact h1
  | startJoin hm => exact h1
  | joinOk l r w hm hw hph => exact h1
  | joinPanic l r w t hm hw hph => exact h1
  | finish hm => exact h1
  | recvJob l r w t rest hw hph hq =>
      intro w0 hw0
      have hl : l = [] := by
        cases l with
        | nil => rfl
        | cons a as => simp at hw0
      subst hl
      simp at hw0
      obtain ⟨hww, hr⟩ := hw0
      subst hr
      have hbeg := h1 w (by simpa using hw)
      rw [← hww]
      show w.begun ++ [t] = jobsOf (s.dequeued ++ [Message.newJob t])
      rw [jobsOf_append, jobsOf_newJob, hbeg]
  | recvTerm l r w rest hw hph hq =>
      intro w0 hw0
      have hl : l = [] := by
        cases l with
        | nil => rfl
        | cons a as => simp at hw0
      subst hl
      simp at hw0
      obtain ⟨hww, hr⟩ := hw0
      subst hr
      have hbeg := h1 w (by simpa using hw)
      rw [← hww]
      show w.begun = jobsOf (s.dequeued ++ [Message.terminate])
      rw [jobsOf_append, jobsOf_term, hbeg, List.append_nil]
  | execFinish l r w t hw hph hf =>
      intro w0 hw0
      have hl : l = [] := by
        cases l with
        | nil => rfl
        | cons a as => simp at hw0
      subst hl
      simp at hw0
      obtain ⟨hww, hr⟩ := hw0
      subst hr
      have hbeg := h1 w (by simpa using hw)
      rw [← hww]
      exact hbeg
  | execPanic l r w t hw hph hf =>
      intro w0 hw0
      have hl : l = [] := by
        cases l with
        | nil => rfl
        | cons a as => simp at hw0
      subst hl
      simp at hw0
      obtain ⟨hww, hr⟩ := hw0
      subst hr
      have hbeg := h1 w (by simpa using hw)
      rw [← hww]
      exact hbeg

theorem begun1_reachable {size : Nat} {faulty : Nat → Bool} {tasks : List Nat}
    {s : St} (h : Reachable size faulty tasks s) : Begun1 s := by
  induction h with
  | refl =>
      intro w hw
      have hmem : w ∈ (List.range size).map initWorker := by
        show w ∈ (initSt size tasks).workers
        rw [hw]
        simp
      obtain ⟨i, _, hi⟩ := List.mem_map.mp hmem
      rw [← hi]
      rfl
  | tail _ hstep ih => exact begun1_step ih hstep

/-- At `finished`, everything has drained: the buffer and the pending
list are empty, no worker holds a job, the executed multiset is the
task multiset, and every worker has exited. -/
theorem finished_state {size : Nat} {faulty : Nat → Bool} {tasks : List Nat}
    {s : St} (hsz : 0 < size) (hreach : Reachable size faulty tasks s)
    (hfin : s.mainPh = .finished) :
    s.queue = [] ∧ s.pending = [] ∧ inFlight s.workers = 0 ∧
    ((↑s.executed : Multiset Nat) = ↑tasks) ∧
    ∀ w ∈ s.workers, w.phase = .done := by
  have inv := sysInv_reachable hreach
  have hlen : s.workers.length = size := inv.workers_length
  have hall : ∀ w ∈ s.workers, w.phase = .done := inv.finAll hfin
  have hpend : s.pending = [] := inv.pendNil (by rw [hfin]; simp)
  have hdone : doneCount s.workers = size := by
    rw [← hlen]
    exact List.countP_eq_length.mpr fun w hwmem => by
      simp [isDone, hall w hwmem]
  have hdeq : termCount s.dequeued = size := by
    rw [inv.deqTerms, hdone]
  obtain ⟨k, hk, hpendk, henq⟩ := inv.sub
  rw [hfin] at henq
  have henq' : s.enqueued = (tasks.take k).map Message.newJob ++
      List.replicate size Message.terminate := by
    simpa [termsSent] using henq
  have htc : termCount s.enqueued = size := by
    rw [henq', termCount_append, termCount_map_newJob, termCount_replicate_term]
    omega
  have hfifo := inv.fifo
  have htcq : termCount s.queue = 0 := by
    have h2 : termCount s.enqueued = termCount s.dequeued + termCount s.queue := by
      rw [hfifo, termCount_append]
    omega
  have hqnil : s.queue = [] := by
    have hsplit := hfifo.symm.trans henq'
    rcases List.append_eq_append_iff.mp hsplit with ⟨a', _, hq2⟩ | ⟨c', _, hterm⟩
    · exfalso
      have : termCount s.queue =
          termCount a' + termCount (List.replicate size Message.terminate) := by
        rw [hq2, termCount_append]
      rw [termCount_replicate_term] at this
      omega
    · cases hq3 : s.queue with
      | nil => rfl
      | cons m q' =>
          exfalso
          have hmem : m ∈ List.replicate size Message.terminate := by
            rw [hterm, hq3]
            exact List.mem_append.mpr (Or.inr (List.mem_cons.mpr (Or.inl rfl)))
          have hm : m = Message.terminate := List.eq_of_mem_replicate hmem
          rw [hq3, hm] at htcq
          simp [termCount, List.countP_cons, isTerm] at htcq
  have hflight : inFlight s.workers = 0 := by
    unfold inFlight
    have : s.workers.filterMap heldJob = [] := by
      rw [List.filterMap_eq_nil_iff]
      intro w hwmem
      simp [heldJob, hall w hwmem]
    rw [this]
    rfl
  refine ⟨hqnil, hpend, hflight, ?_, hall⟩
  have hcons := inv.conserve
  rw [hqnil, hpend, hflight] at hcons
  simpa [jobsOf] using hcons

/-- A worker that has exited its loop (cleanly or by panic) never takes
another step: its state is frozen. -/
theorem phase_stable_step {size : Nat} {faulty : Nat → Bool} {s s' : St}
    {i : Nat} {w : WorkerSt}
    (hstep : Step size faulty s s') (hget : s.workers[i]? = some w)
    (hterm : w.phase = .done ∨ ∃ t, w.phase = .panicked t) :
    s'.workers[i]? = some w := by
  cases hstep with
  | submit t rest hm hp => exact hget
  | beginDrop hm hp => exact hget
  | sendTerm k0 hm hk0 => exact hget
  | startJoin hm => exact hget
  | joinOk l r wx hm hw hph => exact hget
  | joinPanic l r wx t hm hw hph => exact hget
  | finish hm => exact hget
  | recvJob l r wx t rest hw hph hq =>
      by_cases hie : i = l.length
      · subst hie
        rw [hw, getElem?_decomp_self] at hget
        obtain rfl : wx = w := Option.some.inj hget
        rcases hterm with h | ⟨t', h⟩ <;> rw [hph] at h <;> cases h
      · show (l ++ _ :: r)[i]? = some w
        rw [getElem?_decomp_ne l r wx _ hie, ← hw]
        exact hget
  | recvTerm l r wx rest hw hph hq =>
      by_cases hie : i = l.length
      · subst hie
        rw [hw, getElem?_decomp_self] at hget
        obtain rfl : wx = w := Option.some.inj hget
        rcases hterm with h | ⟨t', h⟩ <;> rw [hph] at h <;> cases h
      · show (l ++ _ :: r)[i]? = some w
        rw [getElem?_decomp_ne l r wx _ hie, ← hw]
        exact hget
  | execFinish l r wx t hw hph hf =>
      by_cases hie : i = l.length
      · subst hie
        rw [hw, getElem?_decomp_self] at hget
        obtain rfl : wx = w := Option.some.inj hget
        rcases hterm with h | ⟨t', h⟩ <;> rw [hph] at h <;> cases h
      · show (l ++ _ :: r)[i]? = some w
        rw [getElem?_decomp_ne l r wx _ hie, ← hw]
        exact hget
  | execPanic l r wx t hw hph hf =>
      by_cases hie : i = l.length
      · subst hie
        rw [hw, getElem?_decomp_self] at hget
        obtain rfl : wx = w := Option.some.inj hget
        rcases hterm with h | ⟨t', h⟩ <;> rw [hph] at h <;> cases h
      · show (l ++ _ :: r)[i]? = some w
        rw [getElem?_decomp_ne l r wx _ hie, ← hw]
        exact hget

theorem phase_stable_rtg {size : Nat} {faulty : Nat → Bool} {s s' : St}
    {i : Nat} {w : WorkerSt}
    (hrtg : Relation.ReflTransGen (Step size faulty) s s')
    (hget : s.workers[i]? = some w)
    (hterm : w.phase = .done ∨ ∃ t, w.phase = .panicked t) :
    s'.workers[i]? = some w := by
  induction hrtg with
  | refl => exact hget
  | tail _ hstep ih => exact phase_stable_step hstep ih hterm

/-- C2: `ThreadPool::new(0)` fails with the configuration error (the
`assert!(size > 0)` panic) before anything is spawned — the spawn log
is empty and no pool value is produced — while for every `size > 0`
construction succeeds. -/
theorem new_zero_fails_before_spawning :
    (threadPoolNew 0).1 = .error .invalidConfiguration ∧
    (threadPoolNew 0).2 = [] ∧
    ∀ size : Nat, 0 < size → ∃ p, (threadPoolNew size).1 = .ok p := by
  refine ⟨rfl, rfl, fun size hsz => ?_⟩
  refine ⟨{ workers :=
    (List.range size).map fun id => { id := id, thread := some id } }, ?_⟩
  simp [threadPoolNew, hsz]

/-- C4: the join loop of `Drop::drop` joins each present handle exactly
once, in roster order; afterwards every handle slot is `None`
(ownership was taken exactly once), and running the loop again joins
nothing — a joined handle is never accessed again. -/
theorem join_handle_taken_once (ws : List WorkerRec) :
    (joinLoop ws).2 = ws.filterMap WorkerRec.thread ∧
    (∀ w ∈ (joinLoop ws).1, w.thread = none) ∧
    joinLoop (joinLoop ws).1 = ((joinLoop ws).1, []) := by
  induction ws with
  | nil => exact ⟨rfl, by simp [joinLoop], rfl⟩
  | cons w ws ih =>
      obtain ⟨ih1, ih2, ih3⟩ := ih
      cases hth : w.thread with
      | some h =>
          refine ⟨?_, ?_, ?_⟩
          · simp [joinLoop, hth, ih1]
          · intro w' hw'
            simp [joinLoop, hth] at hw'
            rcases hw' with h1 | h1
            · rw [h1]
            · exact ih2 w' h1
          · simp only [joinLoop, hth]
            simp [joinLoop, ih3]
      | none =>
          refine ⟨?_, ?_, ?_⟩
          · simp [joinLoop, hth, ih1]
          · intro w' hw'
            simp [joinLoop, hth] at hw'
            rcases hw' with h1 | h1
            · rw [h1, hth]
            · exact ih2 w' h1
          · simp only [joinLoop, hth]
            simp [joinLoop, hth, ih3]

/-- C9: `new(size)` with `size > 0` spawns exactly `size` workers with
sequential ids `0..size-1` (one spawn per worker, as the spawn log
shows), and the roster is fixed for the pool's entire lifetime: in
every reachable state the workers are still exactly those with ids
`0..size-1`, in order. -/
theorem new_roster_fixed :
    (∀ size : Nat, 0 < size → ∃ p, (threadPoolNew size).1 = .ok p ∧
      p.workers.map WorkerRec.id = List.range size ∧
      p.workers.length = size ∧
      (threadPoolNew size).2 = List.range size) ∧
    (∀ size : Nat, ∀ faulty : Nat → Bool, ∀ tasks : List Nat, ∀ s : St,
      Reachable size faulty tasks s →
      s.workers.map WorkerSt.id = List.range size ∧
      s.workers.length = size) := by
  constructor
  · intro size hsz
    refine ⟨{ workers :=
      (List.range size).map fun id => { id := id, thread := some id } }, ?_, ?_, ?_, ?_⟩
    · simp [threadPoolNew, hsz]
    · rw [List.map_map]
      have h : (WorkerRec.id ∘ fun id => ({ id := id, thread := some id } : WorkerRec)) =
          fun n => n := funext fun n => rfl
      simp [h]
    · simp
    · simp [threadPoolNew, hsz]
  · intro size faulty tasks s hreach
    have inv := sysInv_reachable hreach
    exact ⟨inv.ids, inv.workers_length⟩

/-- C1: for every `size > 0` and every finite list of submitted tasks
(no task faulting), once teardown has completed (`Drop::drop`
returned), the multiset of executed tasks equals the multiset of
submitted tasks — each task ran exactly once — and the dropping
context reaches that point only when every worker thread has exited
its loop. -/
theorem teardown_executes_all_tasks_once
    (size : Nat) (tasks : List Nat) (s : St) (hsz : 0 < size)
    (hreach : Reachable size (fun _ => false) tasks s)
    (hfin : s.mainPh = .finished) :
    ((↑s.executed : Multiset Nat) = (↑tasks : Multiset Nat)) ∧
    ∀ w ∈ s.workers, w.phase = .done := by
  obtain ⟨_, _, _, hexec, hall⟩ := finished_state hsz hreach hfin
  exact ⟨hexec, hall⟩

/-- C3: teardown enqueues exactly `size` `Terminate`s — all of them
before any join occurs — and then joins every worker handle exactly
once in roster order (`joined = [0, …, size-1]`); when it returns, no
worker thread is still alive. -/
theorem teardown_terminates_then_joins_in_order :
    (∀ size : Nat, ∀ faulty : Nat → Bool, ∀ tasks : List Nat, ∀ s : St,
      Reachable size faulty tasks s → s.mainPh = .finished →
      termCount s.enqueued = size ∧ s.joined = List.range size ∧
      ∀ w ∈ s.workers, w.phase = .done) ∧
    (∀ size : Nat, ∀ faulty : Nat → Bool, ∀ tasks : List Nat, ∀ s s' : St,
      Reachable size faulty tasks s → Step size faulty s s' →
      s.joined ≠ s'.joined → termCount s.enqueued = size) := by
  constructor
  · intro size faulty tasks s hreach hfin
    have inv := sysInv_reachable hreach
    obtain ⟨k, hk, hpendk, henq⟩ := inv.sub
    rw [hfin] at henq
    refine ⟨?_, ?_, inv.finAll hfin⟩
    · have henq' : s.enqueued = (tasks.take k).map Message.newJob ++
          List.replicate size Message.terminate := by
        simpa [termsSent] using henq
      rw [henq', termCount_append, termCount_map_newJob, termCount_replicate_term]
      omega
    · have hj := inv.joinedSpec
      rw [hfin] at hj
      simpa [joinedOk] using hj
  · intro size faulty tasks s s' hreach hstep hjoined
    have inv := sysInv_reachable hreach
    cases hstep with
    | submit t rest hm hp => exact absurd rfl hjoined
    | beginDrop hm hp => exact absurd rfl hjoined
    | sendTerm k0 hm hk0 => exact absurd rfl hjoined
    | startJoin hm => exact absurd rfl hjoined
    | finish hm => exact absurd rfl hjoined
    | recvJob l r wx t rest hw hph hq => exact absurd rfl hjoined
    | recvTerm l r wx rest hw hph hq => exact absurd rfl hjoined
    | execFinish l r wx t hw hph hf => exact absurd rfl hjoined
    | execPanic l r wx t hw hph hf => exact absurd rfl hjoined
    | joinOk l r wx hm hw hph =>
        obtain ⟨k, hk, hpendk, henq⟩ := inv.sub
        rw [hm] at henq
        have henq' : s.enqueued = (tasks.take k).map Message.newJob ++
            List.replicate size Message.terminate := by
          simpa [termsSent] using henq
        rw [henq', termCount_append, termCount_map_newJob, termCount_replicate_term]
        omega
    | joinPanic l r wx t hm hw hph =>
        obtain ⟨k, hk, hpendk, henq⟩ := inv.sub
        rw [hm] at henq
        have henq' : s.enqueued = (tasks.take k).map Message.newJob ++
            List.replicate size Message.terminate := by
          simpa [termsSent] using henq
        rw [henq', termCount_append, termCount_map_newJob, termCount_replicate_term]
        omega

/-- C5: the shared queue is globally FIFO — in every reachable state
the receive history is a prefix of the send history, whichever workers
performed the receives — and with `size = 1` the single worker begins
tasks exactly in submission order: its begun log is always a prefix of
the submitted task list. -/
theorem queue_fifo_total_order :
    (∀ size : Nat, ∀ faulty : Nat → Bool, ∀ tasks : List Nat, ∀ s : St,
      Reachable size faulty tasks s → s.dequeued <+: s.enqueued) ∧
    (∀ faulty : Nat → Bool, ∀ tasks : List Nat, ∀ s : St, ∀ w : WorkerSt,
      Reachable 1 faulty tasks s → s.workers = [w] →
      w.begun <+: tasks) := by
  constructor
  · intro size faulty tasks s hreach
    exact ⟨s.queue, (sysInv_reachable hreach).fifo.symm⟩
  · intro faulty tasks s w hreach hw
    have inv := sysInv_reachable hreach
    have hbeg := begun1_reachable hreach w hw
    obtain ⟨k, hk, hpendk, henq⟩ := inv.sub
    have hjobs : jobsOf s.enqueued = tasks.take k := by
      rw [henq, jobsOf_append, jobsOf_map_newJob, jobsOf_replicate_term,
        List.append_nil]
    have hpre : jobsOf s.dequeued <+: jobsOf s.enqueued := by
      refine ⟨jobsOf s.queue, ?_⟩
      rw [← jobsOf_append, ← inv.fifo]
    rw [hbeg]
    refine List.IsPrefix.trans ?_ (List.take_prefix k tasks)
    rw [← hjobs]
    exact hpre

/-- C6: the worker loop is exactly the state machine of `Worker::new`:
the only transitions a worker can take are receive-`NewJob` (running →
executing that job, logging it as begun), receive-`Terminate` (running
→ done, exiting the loop), finish-job (executing → running), and
panic-in-job (executing → dead); and once a worker has observed
`Terminate` (phase `done`) it is frozen forever — in particular it
never begins another task. -/
theorem worker_loop_state_machine :
    (∀ size : Nat, ∀ faulty : Nat → Bool, ∀ s s' : St, ∀ i : Nat,
      ∀ w w' : WorkerSt,
      Step size faulty s s' →
      s.workers[i]? = some w → s'.workers[i]? = some w' → w ≠ w' →
      (∃ t rest, w.phase = .running ∧ s.queue = .newJob t :: rest ∧
        w'.phase = .exec t ∧ w'.begun = w.begun ++ [t]) ∨
      (∃ rest, w.phase = .running ∧ s.queue = .terminate :: rest ∧
        w'.phase = .done ∧ w'.begun = w.begun) ∨
      (∃ t, w.phase = .exec t ∧ faulty t = false ∧ w'.phase = .running ∧
        w'.begun = w.begun) ∨
      (∃ t, w.phase = .exec t ∧ faulty t = true ∧ w'.phase = .panicked t ∧
        w'.begun = w.begun)) ∧
    (∀ size : Nat, ∀ faulty : Nat → Bool, ∀ s s' : St, ∀ i : Nat,
      ∀ w : WorkerSt,
      Relation.ReflTransGen (Step size faulty) s s' →
      s.workers[i]? = some w → w.phase = .done →
      s'.workers[i]? = some w) := by
  constructor
  · intro size faulty s s' i w w' hstep hget hget' hne
    cases hstep with
    | submit t rest hm hp =>
        exact absurd (Option.some.inj (hget.symm.trans hget')) hne
    | beginDrop hm hp =>
        exact absurd (Option.some.inj (hget.symm.trans hget')) hne
    | sendTerm k0 hm hk0 =>
        exact absurd (Option.some.inj (hget.symm.trans hget')) hne
    | startJoin hm =>
        exact absurd (Option.some.inj (hget.symm.trans hget')) hne
    | joinOk l r wx hm hw hph =>
        exact absurd (Option.some.inj (hget.symm.trans hget')) hne
    | joinPanic l r wx t hm hw hph =>
        exact absurd (Option.some.inj (hget.symm.trans hget')) hne
    | finish hm =>
        exact absurd (Option.some.inj (hget.symm.trans hget')) hne
    | recvJob l r wx t rest hw hph hq =>
        by_cases hie : i = l.length
        · subst hie
          rw [hw, getElem?_decomp_self] at hget
          have hwwx : w = wx := (Option.some.inj hget).symm
          have hget2 : (l ++
              ({ wx with phase := .exec t, begun := wx.begun ++ [t] }) :: r)[l.length]? =
              some w' := hget'
          rw [getElem?_decomp_self] at hget2
          have hw2 : w' = { wx with phase := .exec t, begun := wx.begun ++ [t] } :=
            (Option.some.inj hget2).symm
          subst hwwx
          refine Or.inl ⟨t, rest, hph, hq, ?_, ?_⟩ <;> rw [hw2]
        · exfalso
          apply hne
          have hget2 : (l ++
              ({ wx with phase := .exec t, begun := wx.begun ++ [t] }) :: r)[i]? =
              some w' := hget'
          rw [getElem?_decomp_ne l r wx _ hie, ← hw] at hget2
          exact Option.some.inj (hget.symm.trans hget2)
    | recvTerm l r wx rest hw hph hq =>
        by_cases hie : i = l.length
        · subst hie
          rw [hw, getElem?_decomp_self] at hget
          have hwwx : w = wx := (Option.some.inj hget).symm
          have hget2 : (l ++ ({ wx with phase := .done }) :: r)[l.length]? =
              some w' := hget'
          rw [getElem?_decomp_self] at hget2
          have hw2 : w' = { wx with phase := .done } := (Option.some.inj hget2).symm
          subst hwwx
          refine Or.inr (Or.inl ⟨rest, hph, hq, ?_, ?_⟩) <;> rw [hw2]
        · exfalso
          apply hne
          have hget2 : (l ++ ({ wx with phase := .done }) :: r)[i]? = some w' := hget'
          rw [getElem?_decomp_ne l r wx _ hie, ← hw] at hget2
          exact Option.some.inj (hget.symm.trans hget2)
    | execFinish l r wx t hw hph hf =>
        by_cases hie : i = l.length
        · subst hie
          rw [hw, getElem?_decomp_self] at hget
          have hwwx : w = wx := (Option.some.inj hget).symm
          have hget2 : (l ++ ({ wx with phase := .running }) :: r)[l.length]? =
              some w' := hget'
          rw [getElem?_decomp_self] at hget2
          have hw2 : w' = { wx with phase := .running } := (Option.some.inj hget2).symm
          subst hwwx
          refine Or.inr (Or.inr (Or.inl ⟨t, hph, hf, ?_, ?_⟩)) <;> rw [hw2]
        · exfalso
          apply hne
          have hget2 : (l ++ ({ wx with phase := .running }) :: r)[i]? = some w' := hget'
          rw [getElem?_decomp_ne l r wx _ hie, ← hw] at hget2
          exact Option.some.inj (hget.symm.trans hget2)
    | execPanic l r wx t hw hph hf =>
        by_cases hie : i = l.length
        · subst hie
          rw [hw, getElem?_decomp_self] at hget
          have hwwx : w = wx := (Option.some.inj hget).symm
          have hget2 : (l ++ ({ wx with phase := .panicked t }) :: r)[l.length]? =
              some w' := hget'
          rw [getElem?_decomp_self] at hget2
          have hw2 : w' = { wx with phase := .panicked t } := (Option.some.inj hget2).symm
          subst hwwx
          refine Or.inr (Or.inr (Or.inr ⟨t, hph, hf, ?_, ?_⟩)) <;> rw [hw2]
        · exfalso
          apply hne
          have hget2 : (l ++ ({ wx with phase := .panicked t }) :: r)[i]? = some w' := hget'
          rw [getElem?_decomp_ne l r wx _ hie, ← hw] at hget2
          exact Option.some.inj (hget.symm.trans hget2)
  · intro size faulty s s' i w hrtg hget hdone
    exact phase_stable_rtg hrtg hget (Or.inl hdone)

/-- C7: `execute` wraps the job as `NewJob` and sends it in a step
enabled with no condition on the queue (it never blocks); and in every
reachable state in which a send can still occur (submission, or one of
the `size` `Terminate` sends of teardown) some worker has neither
exited nor died, so the shared receiving end is still alive and the
send's failure branch (`unwrap` of an `Err`) is unreachable. -/
theorem execute_never_blocks_and_send_succeeds :
    (∀ size : Nat, ∀ faulty : Nat → Bool, ∀ s : St, ∀ t : Nat,
      ∀ rest : List Nat,
      s.mainPh = .submitting → s.pending = t :: rest →
      Step size faulty s
        { s with pending := rest
                 queue := s.queue ++ [.newJob t]
                 enqueued := s.enqueued ++ [.newJob t] }) ∧
    (∀ size : Nat, ∀ tasks : List Nat, ∀ s : St, 0 < size →
      Reachable size (fun _ => false) tasks s →
      (s.mainPh = .submitting ∨ ∃ k, s.mainPh = .dropSending k ∧ k < size) →
      ∃ w ∈ s.workers, w.phase ≠ .done ∧ ∀ t, w.phase ≠ .panicked t) := by
  constructor
  · intro size faulty s t rest hm hp
    exact Step.submit s t rest hm hp
  · intro size tasks s hsz hreach hph
    have inv := sysInv_reachable hreach
    have hnp := noPanic_reachable (fun _ => rfl) hreach
    have hlen := inv.workers_length
    have hdc : doneCount s.workers < size := by
      have h1 : termCount s.dequeued = doneCount s.workers := inv.deqTerms
      obtain ⟨k, hk, hpendk, henq⟩ := inv.sub
      have h2 : termCount s.enqueued = termCount s.dequeued + termCount s.queue := by
        rw [inv.fifo, termCount_append]
      have h3 : termCount s.enqueued = termsSent size s.mainPh := by
        rw [henq, termCount_append, termCount_map_newJob, termCount_replicate_term]
        omega
      have h4 : termsSent size s.mainPh < size := by
        rcases hph with h | ⟨k', hk', hlt⟩
        · rw [h]
          simpa [termsSent] using hsz
        · rw [hk']
          simpa [termsSent] using hlt
      omega
    have hex : ∃ w ∈ s.workers, isDone w = false := by
      by_contra hcon
      push_neg at hcon
      have hall : ∀ w ∈ s.workers, isDone w = true := by
        intro w hw
        cases h : isDone w with
        | false => exact absurd h (hcon w hw)
        | true => rfl
      have heq : doneCount s.workers = s.workers.length :=
        List.countP_eq_length.mpr hall
      omega
    obtain ⟨w, hwmem, hwd⟩ := hex
    refine ⟨w, hwmem, ?_, hnp w hwmem⟩
    intro hdone
    rw [show isDone w = true from by simp [isDone, hdone]] at hwd
    cases hwd

/-- C10: the worker loop's `recv().unwrap()` (and the lock acquisition
it is nested in) cannot fail under the pool's lifecycle: whenever some
worker is still blocked at `recv`, teardown has not yet returned — so
the sending end, which outlives teardown, is still alive and every
worker observes a message (its `Terminate` at the latest) before the
channel can close; and in a run with no faulty job no worker thread
ever panics (so the lock is never poisoned by a worker either). -/
theorem recv_unwrap_unreachable :
    (∀ size : Nat, ∀ faulty : Nat → Bool, ∀ tasks : List Nat, ∀ s : St,
      ∀ i : Nat, ∀ w : WorkerSt,
      Reachable size faulty tasks s → s.workers[i]? = some w →
      w.phase = .running → s.mainPh ≠ .finished) ∧
    (∀ size : Nat, ∀ tasks : List Nat, ∀ s : St,
      Reachable size (fun _ => false) tasks s →
      ∀ w ∈ s.workers, ∀ t, w.phase ≠ .panicked t) := by
  constructor
  · intro size faulty tasks s i w hreach hget hrun hfin
    have inv := sysInv_reachable hreach
    have hmem : w ∈ s.workers := List.mem_iff_getElem?.mpr ⟨i, hget⟩
    have hdone := inv.finAll hfin w hmem
    rw [hrun] at hdone
    cases hdone
  · intro size tasks s hreach
    exact noPanic_reachable (fun _ => rfl) hreach

/-- C8 (amended): a job panic kills its worker — the worker's thread
dies without ever reaching the clean `done` exit, and stays dead — and
at teardown the join of that worker's handle does return (a dead
thread is joinable: the join step is enabled), but it yields an `Err`
whose `unwrap` panics the dropping context, so teardown does not
complete normally for the remaining workers. -/
theorem task_panic_kills_worker_teardown_panics :
    (∀ size : Nat, ∀ faulty : Nat → Bool, ∀ s : St, ∀ l r : List WorkerSt,
      ∀ w : WorkerSt, ∀ t : Nat,
      s.workers = l ++ w :: r → w.phase = .exec t → faulty t = true →
      Step size faulty s
        { s with workers := l ++ { w with phase := .panicked t } :: r }) ∧
    (∀ size : Nat, ∀ faulty : Nat → Bool, ∀ s s' : St, ∀ i : Nat,
      ∀ w : WorkerSt, ∀ t : Nat,
      Relation.ReflTransGen (Step size faulty) s s' →
      s.workers[i]? = some w → w.phase = .panicked t →
      s'.workers[i]? = some w ∧ w.phase ≠ .done) ∧
    (∀ size : Nat, ∀ faulty : Nat → Bool, ∀ s : St, ∀ l r : List WorkerSt,
      ∀ w : WorkerSt, ∀ t : Nat,
      s.mainPh = .joining l.length → s.workers = l ++ w :: r →
      w.phase = .panicked t →
      Step size faulty s
        { s with mainPh := .panicked, joined := s.joined ++ [l.length] }) := by
  refine ⟨?_, ?_, ?_⟩
  · intro size faulty s l r w t hw hph hf
    exact Step.execPanic s l r w t hw hph hf
  · intro size faulty s s' i w t hrtg hget hph
    refine ⟨phase_stable_rtg hrtg hget (Or.inr ⟨t, hph⟩), ?_⟩
    rw [hph]
    simp
  · intro size faulty s l r w t hm hw hph
    exact Step.joinPanic s l r w t hm hw hph

/-- The faulty-job assignment of the counterexample run: job `0`
panics when executed. -/
def cexFaulty : Nat → Bool := fun t => t == 0

/-- Counterexample run, two workers, one faulty job: the states after
submitting job 0, starting the drop, sending the two `Terminate`s,
entering the join loop, worker 0 receiving and then dying on job 0,
and the dropping context panicking on `join().unwrap()`. -/
def cexSt1 : St :=
  { initSt 2 [0] with pending := []
                      queue := [.newJob 0]
                      enqueued := [.newJob 0] }

def cexSt2 : St := { cexSt1 with mainPh := .dropSending 0 }

def cexSt3 : St :=
  { cexSt2 with queue := [.newJob 0, .terminate]
                enqueued := [.newJob 0, .terminate]
                mainPh := .dropSending 1 }

def cexSt4 : St :=
  { cexSt3 with queue := [.newJob 0, .terminate, .terminate]
                enqueued := [.newJob 0, .terminate, .terminate]
                mainPh := .dropSending 2 }

def cexSt5 : St := { cexSt4 with mainPh := .joining 0 }

def cexSt6 : St :=
  { cexSt5 with queue := [.terminate, .terminate]
                dequeued := [.newJob 0]
                workers := [⟨0, .exec 0, [0]⟩, ⟨1, .running, []⟩] }

def cexSt7 : St :=
  { cexSt6 with workers := [⟨0, .panicked 0, [0]⟩, ⟨1, .running, []⟩] }

def cexSt8 : St :=
  { cexSt7 with mainPh := .panicked
                joined := [0] }

theorem cexReach : Reachable 2 cexFaulty [0] cexSt8 := by
  have h1 : Step 2 cexFaulty (initSt 2 [0]) cexSt1 :=
    Step.submit (initSt 2 [0]) 0 [] rfl rfl
  have h2 : Step 2 cexFaulty cexSt1 cexSt2 :=
    Step.beginDrop cexSt1 rfl rfl
  have h3 : Step 2 cexFaulty cexSt2 cexSt3 :=
    Step.sendTerm cexSt2 0 rfl (by decide)
  have h4 : Step 2 cexFaulty cexSt3 cexSt4 :=
    Step.sendTerm cexSt3 1 rfl (by decide)
  have h5 : Step 2 cexFaulty cexSt4 cexSt5 :=
    Step.startJoin cexSt4 rfl
  have h6 : Step 2 cexFaulty cexSt5 cexSt6 :=
    Step.recvJob cexSt5 [] [⟨1, .running, []⟩] ⟨0, .running, []⟩ 0
      [.terminate, .terminate] (by decide) rfl rfl
  have h7 : Step 2 cexFaulty cexSt6 cexSt7 :=
    Step.execPanic cexSt6 [] [⟨1, .running, []⟩] ⟨0, .exec 0, [0]⟩ 0
      rfl rfl rfl
  have h8 : Step 2 cexFaulty cexSt7 cexSt8 :=
    Step.joinPanic cexSt7 [] [⟨1, .running, []⟩] ⟨0, .panicked 0, [0]⟩ 0
      rfl rfl rfl
  exact Relation.ReflTransGen.head h1 (Relation.ReflTransGen.head h2
    (Relation.ReflTransGen.head h3 (Relation.ReflTransGen.head h4
      (Relation.ReflTransGen.head h5 (Relation.ReflTransGen.head h6
        (Relation.ReflTransGen.head h7 (Relation.ReflTransGen.single h8)))))))

/-- C8 counterexample: with two workers and one job whose execution
panics, teardown reaches the `panicked` state — the join of the dead
worker's handle returned `Err`, its `unwrap` panicked the dropping
context, and worker 1's handle was never joined (`joined = [0]`, not
`[0, 1]`): teardown does not complete normally for the remaining
workers. -/
theorem teardown_aborts_on_task_panic :
    Reachable 2 cexFaulty [0] cexSt8 ∧
    cexSt8.mainPh = MainPh.panicked ∧
    cexSt8.joined = [0] ∧
    cexSt8.joined ≠ List.range 2 ∧
    cexSt8.mainPh ≠ MainPh.finished := by
  exact ⟨cexReach, rfl, rfl, by decide, by decide⟩

/-- Fault-free demonstration run: one worker, one job (`5`), submitted
and torn down; the run ends with `Drop::drop` returned. -/
def demoSt1 : St :=
  { initSt 1 [5] with pending := []
                      queue := [.newJob 5]
                      enqueued := [.newJob 5] }

def demoSt2 : St := { demoSt1 with mainPh := .dropSending 0 }

def demoSt3 : St :=
  { demoSt2 with queue := [.newJob 5, .terminate]
                 enqueued := [.newJob 5, .terminate]
                 mainPh := .dropSending 1 }

def demoSt4 : St := { demoSt3 with mainPh := .joining 0 }

def demoSt5 : St :=
  { demoSt4 with queue := [.terminate]
                 dequeued := [.newJob 5]
                 workers := [⟨0, .exec 5, [5]⟩] }

def demoSt6 : St :=
  { demoSt5 with executed := [5]
                 workers := [⟨0, .running, [5]⟩] }

def demoSt7 : St :=
  { demoSt6 with queue := []
                 dequeued := [.newJob 5, .terminate]
                 workers := [⟨0, .done, [5]⟩] }

def demoSt8 : St :=
  { demoSt7 with mainPh := .joining 1
                 joined := [0] }

def demoSt9 : St := { demoSt8 with mainPh := .finished }

theorem demoReach : Reachable 1 (fun _ => false) [5] demoSt9 := by
  have h1 : Step 1 (fun _ => false) (initSt 1 [5]) demoSt1 :=
    Step.submit (initSt 1 [5]) 5 [] rfl rfl
  have h2 : Step 1 (fun _ => false) demoSt1 demoSt2 :=
    Step.beginDrop demoSt1 rfl rfl
  have h3 : Step 1 (fun _ => false) demoSt2 demoSt3 :=
    Step.sendTerm demoSt2 0 rfl (by decide)
  have h4 : Step 1 (fun _ => false) demoSt3 demoSt4 :=
    Step.startJoin demoSt3 rfl
  have h5 : Step 1 (fun _ => false) demoSt4 demoSt5 :=
    Step.recvJob demoSt4 [] [] ⟨0, .running, []⟩ 5 [.terminate]
      (by decide) rfl rfl
  have h6 : Step 1 (fun _ => false) demoSt5 demoSt6 :=
    Step.execFinish demoSt5 [] [] ⟨0, .exec 5, [5]⟩ 5 rfl rfl rfl
  have h7 : Step 1 (fun _ => false) demoSt6 demoSt7 :=
    Step.recvTerm demoSt6 [] [] ⟨0, .running, [5]⟩ [] rfl rfl rfl
  have h8 : Step 1 (fun _ => false) demoSt7 demoSt8 :=
    Step.joinOk demoSt7 [] [] ⟨0, .done, [5]⟩ rfl rfl rfl
  have h9 : Step 1 (fun _ => false) demoSt8 demoSt9 :=
    Step.finish demoSt8 rfl
  exact Relation.ReflTransGen.head h1 (Relation.ReflTransGen.head h2
    (Relation.ReflTransGen.head h3 (Relation.ReflTransGen.head h4
      (Relation.ReflTransGen.head h5 (Relation.ReflTransGen.head h6
        (Relation.ReflTransGen.head h7 (Relation.ReflTransGen.head h8
          (Relation.ReflTransGen.single h9))))))))

/-- Witness for C1 at the demonstration run: the executed multiset is
exactly the submitted one and the single worker has exited. -/
theorem teardown_executes_all_tasks_once_witness :
    ((↑demoSt9.executed : Multiset Nat) = (↑([5] : List Nat) : Multiset Nat)) ∧
    ∀ w ∈ demoSt9.workers, w.phase = .done :=
  teardown_executes_all_tasks_once 1 [5] demoSt9 (by decide) demoReach rfl

/-- Witness for C2 at `size = 3`: construction succeeds. -/
theorem new_zero_fails_before_spawning_witness :
    ∃ p, (threadPoolNew 3).1 = .ok p :=
  new_zero_fails_before_spawning.2.2 3 (by decide)

/-- Witness for C3 at the demonstration run. -/
theorem teardown_terminates_then_joins_in_order_witness :
    termCount demoSt9.enqueued = 1 ∧ demoSt9.joined = List.range 1 ∧
    ∀ w ∈ demoSt9.workers, w.phase = .done :=
  teardown_terminates_then_joins_in_order.1 1 (fun _ => false) [5] demoSt9
    demoReach rfl

/-- Witness for C5 at the demonstration run: the receive history is a
prefix of the send history, and the single worker began its tasks in
submission order. -/
theorem queue_fifo_total_order_witness :
    demoSt9.dequeued <+: demoSt9.enqueued ∧
    WorkerSt.begun ⟨0, .done, [5]⟩ <+: [5] :=
  ⟨queue_fifo_total_order.1 1 (fun _ => false) [5] demoSt9 demoReach,
   queue_fifo_total_order.2 (fun _ => false) [5] demoSt9 ⟨0, .done, [5]⟩
     demoReach (by decide)⟩

/-- Witness for C6 at the demonstration run: the worker that observed
`Terminate` is frozen (vacuous trailing trace). -/
theorem worker_loop_state_machine_witness :
    demoSt9.workers[0]? = some ⟨0, .done, [5]⟩ :=
  worker_loop_state_machine.2 1 (fun _ => false) demoSt9 demoSt9 0
    ⟨0, .done, [5]⟩ Relation.ReflTransGen.refl (by decide) rfl

/-- Witness for C7 at the initial state of the demonstration run: some
worker is alive, so the send cannot fail. -/
theorem execute_never_blocks_and_send_succeeds_witness :
    ∃ w ∈ (initSt 1 [5]).workers,
      w.phase ≠ .done ∧ ∀ t, w.phase ≠ .panicked t :=
  execute_never_blocks_and_send_succeeds.2 1 [5] (initSt 1 [5]) (by decide)
    Relation.ReflTransGen.refl (Or.inl rfl)

/-- Witness for the amended C8 at the counterexample run: the join of
the dead worker is enabled and panics the dropping context. -/
theorem task_panic_kills_worker_teardown_panics_witness :
    Step 2 cexFaulty cexSt7 cexSt8 :=
  task_panic_kills_worker_teardown_panics.2.2 2 cexFaulty cexSt7 []
    [⟨1, .running, []⟩] ⟨0, .panicked 0, [0]⟩ 0 rfl rfl rfl

/-- Witness for C9 at the demonstration run: the roster is still
`[0]`, of size 1. -/
theorem new_roster_fixed_witness :
    demoSt9.workers.map WorkerSt.id = List.range 1 ∧
    demoSt9.workers.length = 1 :=
  new_roster_fixed.2 1 (fun _ => false) [5] demoSt9 demoReach

/-- Witness for C10 at the initial state: worker 0 is blocked at
`recv`, and indeed teardown has not returned. -/
theorem recv_unwrap_unreachable_witness :
    (initSt 1 [5]).mainPh ≠ .finished :=
  recv_unwrap_unreachable.1 1 (fun _ => false) [5] (initSt 1 [5]) 0
    (initWorker 0) Relation.ReflTransGen.refl (by decide) rfl
